import Mathlib

set_option autoImplicit false

/-!
Verification of the GuardSpine connector template's evidence-bundle core.

The development shallowly embeds the two connector variants found in the
repository:

* the local sealer variant (`src/unnamed/part_001`), whose
  `buildImmutabilityProof` serializes each evidence item with
  `JSON.stringify`, hashes it, and derives a root hash over the
  concatenated link hashes; and
* the kernel-delegating variant (`src/src/connector.ts`), whose
  `emitEvidenceBundle` obtains a sealed proof from an external
  `@guardspine/kernel` and embeds it into the returned bundle.

JavaScript values appearing in item payloads (`Record<string, unknown>`)
are modelled by the inductive type `Json` below; numbers are modelled by
integers (the integral fragment of JS numbers), strings by Lean strings
(sequences of unicode scalar values), and `undefined` (together with the
other values `JSON.stringify` treats as unserializable inside objects,
such as functions and symbols) by the constructor `Json.undef`.
The ambient effects the code performs (`new Date()`, `randomUUID()`,
`crypto.createHash("sha256")`) are made explicit parameters: a `clock`
producing the string of the k-th `toISOString()` call, explicit
`bundleId` / `createdAt` strings, and a hash function `H : String → String`
standing for hex-encoded SHA-256.
-/

/-- Model of the JavaScript values that can appear in an evidence item's
`payload : Record<string, unknown>`.  Object fields are kept in insertion
order, exactly as a JS object enumerates its (string-keyed) properties. -/
inductive Json where
  | null
  | bool (b : Bool)
  | num (n : Int)
  | str (s : String)
  | arr (elems : List Json)
  | obj (fields : List (String × Json))
  | undef

/-- Left brace character, written via its code point. -/
def lbrace : Char := Char.ofNat 123

/-- Right brace character, written via its code point. -/
def rbrace : Char := Char.ofNat 125

/-- Decimal digit character for `n < 10`. -/
def digitChar (n : Nat) : Char := Char.ofNat (48 + n)

/-- Lowercase hexadecimal digit character for `n < 16` (JS renders
`\u00XX` escapes with lowercase hex digits). -/
def hexChar (n : Nat) : Char :=
  if n < 10 then digitChar n else Char.ofNat (97 + (n - 10))

/-- Fuel-indexed decimal rendering; the fuel only forces structural
recursion (any fuel at least the number itself is enough, see the
stability lemma) so that the definition evaluates by reduction. -/
def natCharsAux : Nat → Nat → List Char
  | 0, n => [digitChar n]
  | fuel + 1, n =>
    if n < 10 then [digitChar n]
    else natCharsAux fuel (n / 10) ++ [digitChar (n % 10)]

/-- Decimal digits of a natural number, most significant first, as
rendered by JS `String(n)`. -/
def natChars (n : Nat) : List Char := natCharsAux n n

/-- Rendering of an integral JS number by `String(n)` / `JSON.stringify`. -/
def intChars : Int → List Char
  | Int.ofNat n => natChars n
  | Int.negSucc n => '-' :: natChars (n + 1)

/-- Escape of one character inside a JSON string literal, following
`JSON.stringify`: quote and backslash get two-character escapes, the five
named control escapes are used where defined, all other control
characters become `\u00XX`, and every other character is emitted
verbatim. -/
def escChar (c : Char) : List Char :=
  if c = '"' then ['\\', '"']
  else if c = '\\' then ['\\', '\\']
  else if c = Char.ofNat 8 then ['\\', 'b']
  else if c = Char.ofNat 12 then ['\\', 'f']
  else if c = Char.ofNat 10 then ['\\', 'n']
  else if c = Char.ofNat 13 then ['\\', 'r']
  else if c = Char.ofNat 9 then ['\\', 't']
  else if c.toNat < 32 then
    ['\\', 'u', '0', '0', hexChar (c.toNat / 16), hexChar (c.toNat % 16)]
  else [c]

/-- JSON string literal for `s`: a quote, the escaped characters, a
closing quote. -/
def quoteChars (s : String) : List Char :=
  '"' :: (s.data.flatMap escChar ++ ['"'])

/-- Comma-separated concatenation, as used between array elements and
object fields. -/
def commaJoin : List (List Char) → List Char
  | [] => []
  | [p] => p
  | p :: ps => p ++ (',' :: commaJoin ps)

mutual

/-- Model of `JSON.stringify` on a single value.  Returns `none` exactly
for `undefined` (and the values JS treats like it), mirroring
`JSON.stringify(undefined) === undefined`. -/
def stringifyVal : Json → Option (List Char)
  | Json.null => some ['n', 'u', 'l', 'l']
  | Json.bool true => some ['t', 'r', 'u', 'e']
  | Json.bool false => some ['f', 'a', 'l', 's', 'e']
  | Json.num n => some (intChars n)
  | Json.str s => some (quoteChars s)
  | Json.arr xs => some ('[' :: (commaJoin (stringifyElems xs) ++ [']']))
  | Json.obj kvs => some (lbrace :: (commaJoin (stringifyFields kvs) ++ [rbrace]))
  | Json.undef => none

/-- Array elements under `JSON.stringify`: an unserializable element is
rendered as `null`. -/
def stringifyElems : List Json → List (List Char)
  | [] => []
  | v :: vs =>
    (match stringifyVal v with
     | some s => s
     | none => ['n', 'u', 'l', 'l']) :: stringifyElems vs

/-- Object fields under `JSON.stringify`: a field whose value is
unserializable is silently skipped. -/
def stringifyFields : List (String × Json) → List (List Char)
  | [] => []
  | (k, v) :: kvs =>
    match stringifyVal v with
    | some s => (quoteChars k ++ (':' :: s)) :: stringifyFields kvs
    | none => stringifyFields kvs

end

/-- Evidence item as declared in `types.ts` (`id`, `source`, `kind`,
`createdAt`, `payload`, optional `tags`).  The payload keeps its JS
property insertion order. -/
structure EvidenceItem where
  id : String
  source : String
  kind : String
  createdAt : String
  payload : List (String × Json)
  tags : Option (List String)

/-- The JS object a type-conforming `EvidenceItem` denotes, with its
properties in declaration order; an absent optional `tags` contributes
no property. -/
def itemToJson (it : EvidenceItem) : Json :=
  Json.obj
    ([("id", Json.str it.id), ("source", Json.str it.source),
      ("kind", Json.str it.kind), ("createdAt", Json.str it.createdAt),
      ("payload", Json.obj it.payload)] ++
     (match it.tags with
      | some ts => [("tags", Json.arr (ts.map Json.str))]
      | none => []))

/-- Model of `JSON.stringify(item)` as performed by the local sealer
(`src/unnamed/part_001`, line 130).  Always produces a string since the
top-level value is an object. -/
def stringifyItem (it : EvidenceItem) : String :=
  match stringifyVal (itemToJson it) with
  | some cs => String.mk cs
  | none => ""

/-- Hash-chain link of the local sealer variant (`part_001`): a single
hash, the previous link's hash (JS `null` for the first link), and a
wall-clock timestamp taken while sealing. -/
structure HashChainLink where
  hash : String
  previousHash : Option String
  timestamp : String
deriving DecidableEq

/-- Immutability proof of the local sealer variant (`part_001`). -/
structure ImmutabilityProof where
  version : String
  algorithm : String
  chain : List HashChainLink
  rootHash : String
deriving DecidableEq

/-- Loop body of `buildImmutabilityProof` (`part_001`, lines 129-139):
hash `JSON.stringify(item)`, record the previous hash and the current
wall-clock reading, and carry the new hash forward.  `i` counts the
`new Date()` readings so the `clock` parameter can be threaded. -/
def buildChainGo (H : String → String) (clock : Nat → String) :
    List EvidenceItem → Nat → Option String → List HashChainLink
  | [], _, _ => []
  | item :: rest, i, prev =>
    let h := H (stringifyItem item)
    { hash := h, previousHash := prev, timestamp := clock i } ::
      buildChainGo H clock rest (i + 1) (some h)

/-- Model of `buildImmutabilityProof` (`part_001`, lines 125-151): build
the chain starting from `previousHash = null`, then hash the
concatenation of all link hashes for the root. -/
def buildImmutabilityProof (H : String → String) (clock : Nat → String)
    (items : List EvidenceItem) : ImmutabilityProof :=
  let chain := buildChainGo H clock items 0 none
  { version := "0.2.0", algorithm := "sha256", chain := chain,
    rootHash := H (String.join (chain.map HashChainLink.hash)) }

/-- Connector configuration (`types.ts`). -/
structure ConnectorConfig where
  connectorId : String
  pollIntervalMs : Option Nat
deriving DecidableEq

/-- Connection state of a `GuardSpineConnector` instance: the private
`connected` flag, initially `false`. -/
structure ConnectorState where
  config : ConnectorConfig
  connected : Bool
deriving DecidableEq

/-- Constructor of `GuardSpineConnector`: stores the config; the field
initializer sets `connected = false`. -/
def initConnector (cfg : ConnectorConfig) : ConnectorState :=
  { config := cfg, connected := false }

/-- Model of `connect()`: sets the connected flag. -/
def connectorConnect (s : ConnectorState) : ConnectorState :=
  { s with connected := true }

/-- Model of `disconnect()`: clears the connected flag. -/
def connectorDisconnect (s : ConnectorState) : ConnectorState :=
  { s with connected := false }

/-- Errors thrown by the connector lifecycle methods. -/
inductive ConnectorError where
  | notConnected
  | notImplemented
deriving DecidableEq

/-- Model of `ensureConnected()` (`part_001` lines 153-159 and
`connector.ts` lines 178-184): throw when the flag is unset. -/
def ensureConnected (s : ConnectorState) : Except ConnectorError Unit :=
  if s.connected then Except.ok () else Except.error ConnectorError.notConnected

/-- Model of the template's `fetchArtifacts` (`part_001`, lines 62-71):
guard on the connection, then return the placeholder empty artifact
list. -/
def fetchArtifacts (s : ConnectorState) :
    Except ConnectorError (List (List (String × Json))) :=
  match ensureConnected s with
  | Except.error e => Except.error e
  | Except.ok _ => Except.ok []

/-!
Kernel-delegating variant (`src/src/connector.ts`).  The external
`@guardspine/kernel` is modelled as a function parameter `sealBundle`;
its result is typed only by the unchecked TypeScript assertion the code
performs, so the chain entries (`unknown[]`) and the sealed items are
arbitrary types `α` and `β`.
-/

/-- Item shape handed to the kernel by `toKernelItem`
(`connector.ts`, lines 157-169). -/
structure KernelItem where
  item_id : String
  content_type : String
  content : Json

/-- Model of `toKernelItem` (`connector.ts`, lines 157-169): JS
`item.id || item-idx` falls back exactly when `id` is the empty (falsy)
string, and `item.tags ?? []` defaults the tags. -/
def toKernelItem (item : EvidenceItem) (index : Nat) : KernelItem :=
  { item_id := if item.id = "" then "item-" ++ Nat.repr index else item.id,
    content_type := "guardspine/connector/" ++ item.kind,
    content := Json.obj
      [("source", Json.str item.source), ("kind", Json.str item.kind),
       ("created_at", Json.str item.createdAt),
       ("payload", Json.obj item.payload),
       ("tags", Json.arr ((item.tags.getD []).map Json.str))] }

/-- Draft bundle passed to `kernel.sealBundle` (`connector.ts`,
lines 95-103). -/
structure KernelDraft where
  bundle_id : String
  version : String
  created_at : String
  items : List KernelItem
  metadata_connector_id : String

/-- The optional proof part of the kernel's sealing result, as accessed
through `sealed?.immutabilityProof?.hashChain` and `...?.rootHash`. -/
structure KernelSealedProof (α : Type) where
  hashChain : Option (List α)
  rootHash : Option String

/-- The kernel's sealing result as the connector sees it after its
unchecked cast (`connector.ts`, lines 104-107). -/
structure KernelSealed (α β : Type) where
  items : Option (List β)
  immutabilityProof : Option (KernelSealedProof α)

/-- Proof shape of the emitted v0.2.0 bundle (`types.ts`). -/
structure SchemaProof (α : Type) where
  hash_chain : List α
  root_hash : String

/-- Model of `toProof` (`connector.ts`, lines 171-176): the chain array
and root hash are embedded verbatim; the cast inspects nothing. -/
def toProof {α : Type} (chain : List α) (rootHash : String) : SchemaProof α :=
  { hash_chain := chain, root_hash := rootHash }

/-- Emitted v0.2.0 bundle shape (`connector.ts`, lines 114-121). -/
structure EmittedBundle (α β : Type) where
  version : String
  bundle_id : String
  created_at : String
  items : List β
  immutability_proof : SchemaProof α
  metadata_connector_id : String

/-- Draft bundle built by `emitEvidenceBundle` (`connector.ts`,
lines 95-103) before handing it to the kernel. -/
def kernelDraftOf (bundleId createdAt : String) (cfg : ConnectorConfig)
    (items : List EvidenceItem) : KernelDraft :=
  { bundle_id := bundleId, version := "0.2.0", created_at := createdAt,
    items := items.mapIdx (fun i it => toKernelItem it i),
    metadata_connector_id := cfg.connectorId }

/-- Acceptance step of `emitEvidenceBundle` (`connector.ts`,
lines 109-122): the JS guard `!sealed?.items ||
!sealed?.immutabilityProof?.hashChain || !sealed?.immutabilityProof?.rootHash`
rejects a missing field and, for the root hash, also the falsy empty
string; everything that passes is embedded verbatim. -/
def acceptSealed {α β : Type} (bundleId createdAt : String)
    (cfg : ConnectorConfig) (sealed : KernelSealed α β) :
    Except String (EmittedBundle α β) :=
  match sealed.items, sealed.immutabilityProof with
  | some its, some pf =>
    match pf.hashChain, pf.rootHash with
    | some hc, some rh =>
      if rh = "" then
        Except.error "Kernel sealing failed to return v0.2.0 proof data."
      else
        Except.ok
          { version := "0.2.0", bundle_id := bundleId,
            created_at := createdAt, items := its,
            immutability_proof := toProof hc rh,
            metadata_connector_id := cfg.connectorId }
    | _, _ => Except.error "Kernel sealing failed to return v0.2.0 proof data."
  | _, _ => Except.error "Kernel sealing failed to return v0.2.0 proof data."

/-- Model of `emitEvidenceBundle` (`connector.ts`, lines 91-122).  The
ambient `randomUUID()` and `new Date()` are the explicit `bundleId` and
`createdAt`; the kernel import is the `sealBundle` parameter. -/
def emitEvidenceBundle {α β : Type} (sealBundle : KernelDraft → KernelSealed α β)
    (bundleId createdAt : String) (cfg : ConnectorConfig)
    (items : List EvidenceItem) : Except String (EmittedBundle α β) :=
  acceptSealed bundleId createdAt cfg
    (sealBundle (kernelDraftOf bundleId createdAt cfg items))

/-!
Claim-side helper definitions: the constants and auxiliary functions the
claims of the specification speak about.
-/

/-- The genesis sentinel the specification demands for `previous_hash[0]`:
a 32-byte all-zero value, i.e. 64 zero hex digits. -/
def specGenesis : String := String.mk (List.replicate 64 '0')

/-- Expected `previousHash` column of a chain whose hash column is the
given list: the start value, then each hash shifted by one position. -/
def chainPrevs (start : Option String) : List String → List (Option String)
  | [] => []
  | h :: hs => start :: chainPrevs (some h) hs

/-- Swap of the entries at positions `k` and `l` (identity when either
index is out of range), used to state the reordering claims. -/
def swapItems {γ : Type} (xs : List γ) (k l : Nat) : List γ :=
  match xs[k]?, xs[l]? with
  | some a, some b => (xs.set k b).set l a
  | _, _ => xs

mutual

/-- Absence of `undefined`-like values anywhere in a payload value; on
this fragment `JSON.stringify` loses no data. -/
def noUndef : Json → Bool
  | Json.null => true
  | Json.bool _ => true
  | Json.num _ => true
  | Json.str _ => true
  | Json.arr xs => noUndefElems xs
  | Json.obj kvs => noUndefFields kvs
  | Json.undef => false

/-- All elements are `undefined`-free. -/
def noUndefElems : List Json → Bool
  | [] => true
  | v :: vs => noUndef v && noUndefElems vs

/-- All field values are `undefined`-free. -/
def noUndefFields : List (String × Json) → Bool
  | [] => true
  | (_, v) :: kvs => noUndef v && noUndefFields kvs

end

/-- Discriminator for the `undefined`-like values. -/
def isUndef : Json → Bool
  | Json.undef => true
  | _ => false

/-- Lexicographic code-point order on character lists (executable, used
for key sorting). -/
def lexLe : List Char → List Char → Bool
  | [], _ => true
  | _ :: _, [] => false
  | x :: xs, y :: ys =>
    if x.toNat < y.toNat then true
    else if y.toNat < x.toNat then false
    else lexLe xs ys

/-- Lexicographic code-point order on keys. -/
def keyLe (a b : String) : Bool := lexLe a.data b.data

/-- Insertion of a field into a key-sorted field list. -/
def insertField (p : String × Json) : List (String × Json) → List (String × Json)
  | [] => [p]
  | q :: qs => if keyLe p.1 q.1 then p :: q :: qs else q :: insertField p qs

/-- Key-insertion sort of an object's field list. -/
def sortFields : List (String × Json) → List (String × Json)
  | [] => []
  | p :: ps => insertField p (sortFields ps)

mutual

/-- Order normalisation of a value: object fields are sorted by key at
every nesting level, array order is preserved.  Two payloads are
structurally equal (differ at most in key insertion order) exactly when
their normalisations coincide. -/
def normJson : Json → Json
  | Json.null => Json.null
  | Json.bool b => Json.bool b
  | Json.num n => Json.num n
  | Json.str s => Json.str s
  | Json.arr xs => Json.arr (normElems xs)
  | Json.obj kvs => Json.obj (sortFields (normFields kvs))
  | Json.undef => Json.undef

/-- Normalisation of array elements. -/
def normElems : List Json → List Json
  | [] => []
  | v :: vs => normJson v :: normElems vs

/-- Normalisation of field values. -/
def normFields : List (String × Json) → List (String × Json)
  | [] => []
  | (k, v) :: kvs => (k, normJson v) :: normFields kvs

end

/-- Structural equality of payload values: equality up to object key
insertion order, the notion the canonicalization claims quantify over. -/
def structurallyEqual (v w : Json) : Prop := normJson v = normJson w

/-!
Reference core modelled from the specification, sections 4.1 to 4.4.
No canonicalizer and no verifier exist anywhere in `src/`; the
specification is their only description, so the definitions below follow
its words and carry `Modelled from the spec` markers.
-/

/-- What the sealing algorithm of the specification consumes per item:
an identifier, a content-type label and the content payload. -/
structure SealInput where
  item_id : String
  content_type : String
  content : Json

/-- Insertion of a rendered field into a key-sorted list. -/
def insertEntry (p : String × List Char) :
    List (String × List Char) → List (String × List Char)
  | [] => [p]
  | q :: qs => if keyLe p.1 q.1 then p :: q :: qs else q :: insertEntry p qs

/-- Key-insertion sort of rendered object fields. -/
def sortEntries : List (String × List Char) → List (String × List Char)
  | [] => []
  | p :: ps => insertEntry p (sortEntries ps)

/-- Rendering of canonicalized object fields as `"key":value`. -/
def renderEntries (ps : List (String × List Char)) : List (List Char) :=
  ps.map (fun p => quoteChars p.1 ++ (':' :: p.2))

mutual

/-- Modelled from the spec (section 4.1, no canonicalizer exists in
`src/`): deterministic serialization with object keys sorted
lexicographically at every nesting level, arrays in source order, one
fixed numeric form, and a loud failure (`none`) on any value without a
deterministic encoding - nothing is dropped or reordered beyond the key
sort. -/
def canonVal : Json → Option (List Char)
  | Json.null => some ['n', 'u', 'l', 'l']
  | Json.bool true => some ['t', 'r', 'u', 'e']
  | Json.bool false => some ['f', 'a', 'l', 's', 'e']
  | Json.num n => some (intChars n)
  | Json.str s => some (quoteChars s)
  | Json.arr xs =>
    (canonElems xs).map (fun ps => '[' :: (commaJoin ps ++ [']']))
  | Json.obj kvs =>
    (canonFields kvs).map (fun ps =>
      lbrace :: (commaJoin (renderEntries (sortEntries ps)) ++ [rbrace]))
  | Json.undef => none

/-- Modelled from the spec: canonicalization of array elements; a
failing element fails the whole value. -/
def canonElems : List Json → Option (List (List Char))
  | [] => some []
  | v :: vs =>
    match canonVal v, canonElems vs with
    | some cv, some rest => some (cv :: rest)
    | _, _ => none

/-- Modelled from the spec: canonicalization of object field values; a
failing field fails the whole value. -/
def canonFields : List (String × Json) → Option (List (String × List Char))
  | [] => some []
  | (k, v) :: kvs =>
    match canonVal v, canonFields kvs with
    | some cv, some rest => some ((k, cv) :: rest)
    | _, _ => none

end

/-- Hash-chain link shape of the v0.2.0 schema (`types.ts`), which is
also the link shape of the specification's reference chain. -/
structure SchemaHashChainLink where
  sequence : Nat
  item_id : String
  content_type : String
  content_hash : String
  previous_hash : String
  chain_hash : String
deriving DecidableEq

/-- Modelled from the spec (section 4.2): the chain recursion.  Position
`i` is hashed into the link as the decimal `encode(i)`; the previous
chain hash (or the genesis sentinel) is carried forward; a
canonicalization failure aborts the whole build. -/
def specChainGo (H : String → String) :
    List SealInput → Nat → String → Option (List SchemaHashChainLink)
  | [], _, _ => some []
  | inp :: rest, i, prev =>
    match canonVal inp.content with
    | none => none
    | some cb =>
      let contentHash := H (String.mk cb)
      let chainHash := H (contentHash ++ prev ++ Nat.repr i)
      match specChainGo H rest (i + 1) chainHash with
      | none => none
      | some tail =>
        some ({ sequence := i, item_id := inp.item_id,
                content_type := inp.content_type,
                content_hash := contentHash, previous_hash := prev,
                chain_hash := chainHash } :: tail)

/-- Proof shape of the specification's reference core. -/
structure SpecProof where
  hash_chain : List SchemaHashChainLink
  root_hash : String
deriving DecidableEq

/-- Modelled from the spec (section 4.2): build the chain from the
genesis sentinel and derive `root_hash` as the hash of the concatenated
chain hashes; the empty sequence yields `H ""` by definition. -/
def specBuildProof (H : String → String) (inputs : List SealInput) :
    Option SpecProof :=
  (specChainGo H inputs 0 specGenesis).map (fun chain =>
    { hash_chain := chain,
      root_hash := H (String.join (chain.map SchemaHashChainLink.chain_hash)) })

/-- Assembled bundle item of the specification's wire format
(section 6): `item_id`, `sequence`, `content_type`, `content`,
`content_hash`. -/
structure SpecBundleItem where
  item_id : String
  sequence : Nat
  content_type : String
  content : Json
  content_hash : String

/-- Assembled bundle of the specification's reference core. -/
structure SpecBundle where
  version : String
  bundle_id : String
  created_at : String
  items : List SpecBundleItem
  proof : SpecProof

/-- Sealing input denoted by an evidence item: its identifier, its kind
as the content-type label, and its payload as the content. -/
def itemInput (it : EvidenceItem) : SealInput :=
  { item_id := it.id, content_type := it.kind, content := Json.obj it.payload }

/-- Sealing input recovered from an assembled bundle item, used by the
verifier's recomputation. -/
def bundleItemInput (bi : SpecBundleItem) : SealInput :=
  { item_id := bi.item_id, content_type := bi.content_type, content := bi.content }

/-- Positional `item_id` agreement between items and links, the
assembler's contract check. -/
def idsAligned : List EvidenceItem → List SchemaHashChainLink → Bool
  | [], [] => true
  | it :: its, ln :: lns => (it.id == ln.item_id) && idsAligned its lns
  | _, _ => false

/-- Modelled from the spec (section 4.3): the assembler packages the
items with the proof built from them, failing on a count mismatch or a
positional `item_id` mismatch. -/
def specAssemble (bundleId createdAt : String) (items : List EvidenceItem)
    (proof : SpecProof) : Option SpecBundle :=
  if items.length ≠ proof.hash_chain.length then none
  else if ¬ idsAligned items proof.hash_chain then none
  else some
    { version := "0.2.0", bundle_id := bundleId, created_at := createdAt,
      items := List.zipWith (fun it ln =>
        { item_id := it.id, sequence := ln.sequence,
          content_type := it.kind, content := Json.obj it.payload,
          content_hash := ln.content_hash }) items proof.hash_chain,
      proof := proof }

/-- Modelled from the spec: the whole sealing pass, proof construction
followed by assembly. -/
def specSeal (H : String → String) (bundleId createdAt : String)
    (items : List EvidenceItem) : Option SpecBundle :=
  (specBuildProof H (items.map itemInput)).bind
    (specAssemble bundleId createdAt items)

/-- Verification outcome (section 4.4): a first-class result, never an
exception. -/
inductive VerifyResult where
  | valid
  | tampered (sequence : Nat)
  | malformed
deriving DecidableEq

/-- First divergent sequence number between the recomputed chain and the
stored chain (compared link by link). -/
def firstDivergence :
    List SchemaHashChainLink → List SchemaHashChainLink → Option Nat
  | [], [] => none
  | a :: l1, b :: l2 => if a = b then firstDivergence l1 l2 else some b.sequence
  | _, _ => some 0

/-- Modelled from the spec (section 4.4): the verifier recomputes the
proof from the bundle's own items - trusting no stored hash - and
reports `valid`, the first divergent sequence as `tampered` (the chain
length standing in for a root-only divergence), or `malformed` on a
structural violation (wrong version, count mismatch, or content that no
longer canonicalizes). -/
def verifyBundle (H : String → String) (b : SpecBundle) : VerifyResult :=
  if b.version ≠ "0.2.0" then VerifyResult.malformed
  else if b.items.length ≠ b.proof.hash_chain.length then VerifyResult.malformed
  else
    match specBuildProof H (b.items.map bundleItemInput) with
    | none => VerifyResult.malformed
    | some expected =>
      match firstDivergence expected.hash_chain b.proof.hash_chain with
      | some i => VerifyResult.tampered i
      | none =>
        if expected.root_hash = b.proof.root_hash then VerifyResult.valid
        else VerifyResult.tampered b.proof.hash_chain.length

/-!
Helper definitions for the serializer-injectivity development: character
classes, the terminator class that can legally follow a serialized value,
constructor tags recoverable from a serialization's first character, and
the evaluation map of decimal digit runs.
-/

/-- Decimal digit character class. -/
def isDigitChar (c : Char) : Bool :=
  decide (48 ≤ c.toNat) && decide (c.toNat ≤ 57)

/-- Characters that can follow a complete serialized value inside a
larger serialization: a comma or a closing bracket (or nothing). -/
def termRest : List Char → Bool
  | [] => true
  | c :: _ => (c == ',') || (c == ']') || (c == rbrace)

/-- Tag recovered from the first character of a serialized value. -/
def headTag (c : Char) : Nat :=
  if c = 'n' then 0
  else if c = 't' then 1
  else if c = 'f' then 1
  else if isDigitChar c then 2
  else if c = '-' then 2
  else if c = '"' then 3
  else if c = '[' then 4
  else if c = lbrace then 5
  else 6

/-- Constructor tag of a value. -/
def ctorTag : Json → Nat
  | Json.null => 0
  | Json.bool _ => 1
  | Json.num _ => 2
  | Json.str _ => 3
  | Json.arr _ => 4
  | Json.obj _ => 5
  | Json.undef => 7

/-- Value of a decimal digit run, used to invert `natChars`. -/
def digitsVal (ds : List Char) : Nat :=
  ds.foldl (fun acc c => 10 * acc + (c.toNat - 48)) 0

/-- Decoding map of the two-character named escapes. -/
def namedEsc : Char → Option Char
  | '"' => some '"'
  | '\\' => some '\\'
  | 'b' => some (Char.ofNat 8)
  | 'f' => some (Char.ofNat 12)
  | 'n' => some (Char.ofNat 10)
  | 'r' => some (Char.ofNat 13)
  | 't' => some (Char.ofNat 9)
  | _ => none

/-- Control characters having a named escape. -/
def namedCtrl (c : Char) : Bool :=
  (c == Char.ofNat 8) || (c == Char.ofNat 12) || (c == Char.ofNat 10) ||
    (c == Char.ofNat 13) || (c == Char.ofNat 9)

/-!
Concrete fixtures used by counterexamples and witnesses.
-/

/-- Sample evidence item with payload `a = 1`. -/
def itemA : EvidenceItem :=
  { id := "a1", source := "github", kind := "commit",
    createdAt := "2024-01-01T00:00:00Z", payload := [("a", Json.num 1)],
    tags := none }

/-- Sample evidence item with payload `b = 2`. -/
def itemB : EvidenceItem :=
  { id := "b2", source := "github", kind := "review",
    createdAt := "2024-01-02T00:00:00Z", payload := [("b", Json.num 2)],
    tags := none }

/-- Item whose payload holds an `undefined` value under key `x`. -/
def itemU1 : EvidenceItem :=
  { id := "u", source := "s", kind := "k", createdAt := "t",
    payload := [("x", Json.undef)], tags := none }

/-- Item like `itemU1` but with an empty payload. -/
def itemU2 : EvidenceItem :=
  { id := "u", source := "s", kind := "k", createdAt := "t",
    payload := [], tags := none }

/-- Payload object `a = 1, b = 2` in that insertion order. -/
def payloadAB : Json := Json.obj [("a", Json.num 1), ("b", Json.num 2)]

/-- The same mapping with the opposite insertion order. -/
def payloadBA : Json := Json.obj [("b", Json.num 2), ("a", Json.num 1)]

/-- Constant stand-in hash function for counterexamples whose violated
conjunct does not depend on the hash function. -/
def hConst : String → String := fun _ => "h"

/-- Identity stand-in hash function: injective, so hash equalities in
counterexamples using it cannot be blamed on hash collisions. -/
def hId : String → String := fun s => s

/-- Stand-in clock. -/
def clockA : Nat → String := fun _ => "2024-01-01T00:00:00.000Z"

/-- A second stand-in clock, one tick later. -/
def clockB : Nat → String := fun _ => "2024-01-01T00:00:01.000Z"

/-- Sample connector configuration. -/
def cfg0 : ConnectorConfig := { connectorId := "test-connector", pollIntervalMs := none }

/-- Stand-in hash function with fixed output length 64 that separates
the serializations of `itemA` and `itemB`, used to discharge the
hypotheses of the reordering theorem at a concrete input. -/
def hPad : String → String := fun s =>
  String.mk (List.replicate 64 (if s = stringifyItem itemA then 'a' else 'b'))

/-- Placeholder bundle used only as the `Option.getD` default in the
verifier round-trip witness. -/
def bundleDefault : SpecBundle :=
  { version := "", bundle_id := "", created_at := "", items := [],
    proof := { hash_chain := [], root_hash := "" } }

/-- Misbehaving kernel: it returns a sealed result whose fields are all
present but whose chain has one link while its item list is empty. -/
def sealMismatch : KernelDraft → KernelSealed Unit Unit := fun _ =>
  { items := some [],
    immutabilityProof := some { hashChain := some [()], rootHash := some "r" } }

/-- Well-formed stand-in kernel used by witnesses. -/
def sealOk : KernelDraft → KernelSealed String Unit := fun _ =>
  { items := some [()],
    immutabilityProof := some { hashChain := some ["link0"], rootHash := some "root0" } }

/-!
Theorems.  Each claim of the specification gets exactly one theorem (plus
a witness or counterexample where the rules of the development require
one); shared lemmas come first.
-/

theorem buildImmutabilityProof_chain (H : String → String)
    (clock : Nat → String) (items : List EvidenceItem) :
    (buildImmutabilityProof H clock items).chain =
      buildChainGo H clock items 0 none := rfl

theorem buildChainGo_map_hash (H : String → String) (clock : Nat → String)
    (items : List EvidenceItem) : ∀ (i : Nat) (p : Option String),
    (buildChainGo H clock items i p).map HashChainLink.hash =
      items.map (fun it => H (stringifyItem it)) := by
  induction items with
  | nil => intro i p; rfl
  | cons it rest ih => intro i p; simp [buildChainGo, ih]

theorem buildChainGo_map_prev (H : String → String) (clock : Nat → String)
    (items : List EvidenceItem) : ∀ (i : Nat) (p : Option String),
    (buildChainGo H clock items i p).map HashChainLink.previousHash =
      chainPrevs p (items.map (fun it => H (stringifyItem it))) := by
  induction items with
  | nil => intro i p; rfl
  | cons it rest ih => intro i p; simp [buildChainGo, chainPrevs, ih]

theorem buildChainGo_length (H : String → String) (clock : Nat → String)
    (items : List EvidenceItem) : ∀ (i : Nat) (p : Option String),
    (buildChainGo H clock items i p).length = items.length := by
  induction items with
  | nil => intro i p; rfl
  | cons it rest ih => intro i p; simp [buildChainGo, ih]

/-- C1 (corrected): what the local sealer actually computes.  Every
link's `hash` is `H(JSON.stringify(item))` - neither the previous hash
nor the sequence number enters the hash input - and the `previousHash`
column is the hash column shifted by one position, starting from JS
`null` (not from a 32-byte zero genesis constant). -/
theorem buildImmutabilityProof_link_structure (H : String → String)
    (clock : Nat → String) (items : List EvidenceItem) :
    (buildImmutabilityProof H clock items).chain.map HashChainLink.hash =
      items.map (fun it => H (stringifyItem it)) ∧
    (buildImmutabilityProof H clock items).chain.map HashChainLink.previousHash =
      chainPrevs none (items.map (fun it => H (stringifyItem it))) := by
  exact ⟨buildChainGo_map_hash H clock items 0 none,
         buildChainGo_map_prev H clock items 0 none⟩

/-- C1 counterexample: on the one-item sequence `[itemA]` the first
link's `previousHash` is JS `null` (`none`), not the 32-byte all-zero
GENESIS constant the claim requires.  The violated conjunct does not
involve the hash function (the code sets `previousHash = null` before
hashing anything), so the stand-in `hConst` refutes the claim as stated
for any hash function, SHA-256 included. -/
theorem first_link_previousHash_is_null :
    (buildImmutabilityProof hConst clockA [itemA]).chain.map
        HashChainLink.previousHash = [none] ∧
      (none : Option String) ≠ some specGenesis := by
  constructor
  · rfl
  · decide

/-- C2 (confirmed): the proof's root hash is the hash of the
concatenated link hashes in chain order - equivalently, of the
concatenated per-item hashes in item order - and the empty item sequence
yields `H ""`, the hash of the empty input. -/
theorem rootHash_spec (H : String → String) (clock : Nat → String)
    (items : List EvidenceItem) :
    (buildImmutabilityProof H clock items).rootHash =
      H (String.join ((buildImmutabilityProof H clock items).chain.map
          HashChainLink.hash)) ∧
    (buildImmutabilityProof H clock items).rootHash =
      H (String.join (items.map (fun it => H (stringifyItem it)))) ∧
    (buildImmutabilityProof H clock []).rootHash = H "" := by
  refine ⟨rfl, ?_, rfl⟩
  show H (String.join ((buildChainGo H clock items 0 none).map
      HashChainLink.hash)) = _
  rw [buildChainGo_map_hash]

/-- C5 (corrected): the chain math is deterministic - the hash column,
the previous-hash column and the root hash do not depend on the clock -
but the full proof object is not byte-identical across runs, because
each link carries a wall-clock timestamp (see the counterexample). -/
theorem buildImmutabilityProof_hash_determinism (H : String → String)
    (c1 c2 : Nat → String) (items : List EvidenceItem) :
    (buildImmutabilityProof H c1 items).chain.map HashChainLink.hash =
      (buildImmutabilityProof H c2 items).chain.map HashChainLink.hash ∧
    (buildImmutabilityProof H c1 items).chain.map HashChainLink.previousHash =
      (buildImmutabilityProof H c2 items).chain.map HashChainLink.previousHash ∧
    (buildImmutabilityProof H c1 items).rootHash =
      (buildImmutabilityProof H c2 items).rootHash := by
  refine ⟨?_, ?_, ?_⟩
  · rw [buildImmutabilityProof_chain, buildImmutabilityProof_chain,
      buildChainGo_map_hash, buildChainGo_map_hash]
  · rw [buildImmutabilityProof_chain, buildImmutabilityProof_chain,
      buildChainGo_map_prev, buildChainGo_map_prev]
  · show H (String.join ((buildChainGo H c1 items 0 none).map
        HashChainLink.hash)) = H (String.join ((buildChainGo H c2 items 0 none).map
        HashChainLink.hash))
    rw [buildChainGo_map_hash, buildChainGo_map_hash]

/-- C5 counterexample: two runs of the proof builder over the identical
one-item sequence, distinguished only by the ambient wall clock, yield
different `ImmutabilityProof` values - the per-link `timestamp` field is
read from the wall clock inside the chain loop, so the proofs are not
byte-identical. -/
theorem buildImmutabilityProof_not_run_identical :
    buildImmutabilityProof hConst clockA [itemA] ≠
      buildImmutabilityProof hConst clockB [itemA] := by
  decide

/-- C7 (confirmed): fetching artifacts on a connector whose `connect()`
has not completed (the `connected` flag is still `false`) throws the
not-connected error; it does not return the empty artifact list. -/
theorem fetchArtifacts_requires_connection (s : ConnectorState)
    (h : s.connected = false) :
    fetchArtifacts s = Except.error ConnectorError.notConnected := by
  simp [fetchArtifacts, ensureConnected, h]

/-- C7 witness: a freshly constructed connector is not connected, and
fetching on it yields the not-connected error. -/
theorem fetchArtifacts_requires_connection_witness :
    (initConnector cfg0).connected = false ∧
      fetchArtifacts (initConnector cfg0) =
        Except.error ConnectorError.notConnected :=
  ⟨rfl, fetchArtifacts_requires_connection (initConnector cfg0) rfl⟩

theorem emitEvidenceBundle_as_accept {α β : Type}
    (sealBundle : KernelDraft → KernelSealed α β) (bundleId createdAt : String)
    (cfg : ConnectorConfig) (items : List EvidenceItem) :
    emitEvidenceBundle sealBundle bundleId createdAt cfg items =
      acceptSealed bundleId createdAt cfg
        (sealBundle (kernelDraftOf bundleId createdAt cfg items)) := rfl

theorem acceptSealed_ok_iff {α β : Type} (bundleId createdAt : String)
    (cfg : ConnectorConfig) (sealed : KernelSealed α β) :
    (∃ b, acceptSealed bundleId createdAt cfg sealed = Except.ok b) ↔
    (∃ its pf hc rh, sealed.items = some its ∧
      sealed.immutabilityProof = some pf ∧ pf.hashChain = some hc ∧
      pf.rootHash = some rh ∧ rh ≠ "") := by
  constructor
  · intro hb
    rcases hb with ⟨b, hb⟩
    rcases hits : sealed.items with _ | its
    · simp only [acceptSealed, hits] at hb; cases hb
    rcases hpf : sealed.immutabilityProof with _ | pf
    · simp only [acceptSealed, hits, hpf] at hb; cases hb
    rcases hhc : pf.hashChain with _ | hc
    · simp only [acceptSealed, hits, hpf, hhc] at hb; cases hb
    rcases hrh : pf.rootHash with _ | rh
    · simp only [acceptSealed, hits, hpf, hhc, hrh] at hb; cases hb
    refine ⟨its, pf, hc, rh, rfl, rfl, hhc, hrh, ?_⟩
    intro hempty
    simp only [acceptSealed, hits, hpf, hhc, hrh, if_pos hempty] at hb
    cases hb
  · intro hp
    rcases hp with ⟨its, pf, hc, rh, hits, hpf, hhc, hrh, hne⟩
    refine ⟨{ version := "0.2.0", bundle_id := bundleId,
              created_at := createdAt, items := its,
              immutability_proof := toProof hc rh,
              metadata_connector_id := cfg.connectorId }, ?_⟩
    simp only [acceptSealed, hits, hpf, hhc, hrh, if_neg hne]

/-- C8 (corrected): assembly in the kernel-delegating variant succeeds
exactly when the sealed result carries its item list, its proof, its
hash chain and a root hash that is not the falsy empty string; no count
comparison and no `item_id` cross-check is performed (see the
counterexample for an accepted count mismatch). -/
theorem emitEvidenceBundle_ok_iff {α β : Type}
    (sealBundle : KernelDraft → KernelSealed α β) (bundleId createdAt : String)
    (cfg : ConnectorConfig) (items : List EvidenceItem) :
    (∃ b, emitEvidenceBundle sealBundle bundleId createdAt cfg items =
      Except.ok b) ↔
    (∃ its pf hc rh,
      (sealBundle (kernelDraftOf bundleId createdAt cfg items)).items =
        some its ∧
      (sealBundle (kernelDraftOf bundleId createdAt cfg items)).immutabilityProof =
        some pf ∧
      pf.hashChain = some hc ∧ pf.rootHash = some rh ∧ rh ≠ "") := by
  rw [emitEvidenceBundle_as_accept]
  exact acceptSealed_ok_iff bundleId createdAt cfg
    (sealBundle (kernelDraftOf bundleId createdAt cfg items))

/-- C8 counterexample: with a kernel that returns an empty sealed item
list but a one-link chain, and an empty evidence item sequence, the item
count (0) differs from the chain length (1), yet `emitEvidenceBundle`
returns a bundle instead of failing. -/
theorem emitEvidenceBundle_accepts_count_mismatch :
    ([] : List EvidenceItem).length ≠ [()].length ∧
    emitEvidenceBundle sealMismatch "bid" "2024-01-01T00:00:00.000Z" cfg0 [] =
      Except.ok
        { version := "0.2.0", bundle_id := "bid",
          created_at := "2024-01-01T00:00:00.000Z", items := [],
          immutability_proof := { hash_chain := [()], root_hash := "r" },
          metadata_connector_id := "test-connector" } := by
  exact ⟨by decide, rfl⟩

/-- C10 (confirmed): whenever the sealed result passes the presence
guard, the returned bundle embeds the kernel's hash chain array, root
hash and items verbatim as its `immutability_proof` and `items`.  The
chain entries have an arbitrary type `α` and the items an arbitrary type
`β`, so the connector provably cannot recompute, type-check or validate
any individual link field. -/
theorem emitEvidenceBundle_embeds_kernel_proof_verbatim {α β : Type}
    (sealBundle : KernelDraft → KernelSealed α β) (bundleId createdAt : String)
    (cfg : ConnectorConfig) (items : List EvidenceItem)
    (its : List β) (pf : KernelSealedProof α) (hc : List α) (rh : String)
    (hits : (sealBundle (kernelDraftOf bundleId createdAt cfg items)).items = some its)
    (hpf : (sealBundle (kernelDraftOf bundleId createdAt cfg items)).immutabilityProof = some pf)
    (hhc : pf.hashChain = some hc) (hrh : pf.rootHash = some rh)
    (hne : rh ≠ "") :
    emitEvidenceBundle sealBundle bundleId createdAt cfg items =
      Except.ok
        { version := "0.2.0", bundle_id := bundleId, created_at := createdAt,
          items := its,
          immutability_proof := { hash_chain := hc, root_hash := rh },
          metadata_connector_id := cfg.connectorId } := by
  rw [emitEvidenceBundle_as_accept]
  simp only [acceptSealed, hits, hpf, hhc, hrh, if_neg hne]
  rfl

/-- C10 witness: a concrete well-formed kernel result is embedded
verbatim. -/
theorem emitEvidenceBundle_embeds_kernel_proof_verbatim_witness :
    emitEvidenceBundle sealOk "b0" "t0" cfg0 [] =
      Except.ok
        { version := "0.2.0", bundle_id := "b0", created_at := "t0",
          items := [()],
          immutability_proof := { hash_chain := ["link0"], root_hash := "root0" },
          metadata_connector_id := "test-connector" } :=
  emitEvidenceBundle_embeds_kernel_proof_verbatim sealOk "b0" "t0" cfg0 []
    [()] { hashChain := some ["link0"], rootHash := some "root0" }
    ["link0"] "root0" rfl rfl rfl rfl (by decide)

theorem stringifyVal_none_iff (v : Json) :
    stringifyVal v = none ↔ isUndef v = true := by
  cases v with
  | bool b => cases b <;> simp [stringifyVal, isUndef]
  | _ => simp [stringifyVal, isUndef]

theorem stringifyFields_drop_undef (kvs : List (String × Json)) :
    stringifyFields (kvs.filter (fun kv => not (isUndef kv.2))) =
      stringifyFields kvs := by
  induction kvs with
  | nil => rfl
  | cons kv rest ih =>
    rcases kv with ⟨k, v⟩
    by_cases hv : isUndef v = true
    · have hnone : stringifyVal v = none := (stringifyVal_none_iff v).mpr hv
      simp [List.filter_cons, hv, stringifyFields, hnone, ih]
    · have hv2 : isUndef v = false := by
        cases h : isUndef v
        · rfl
        · exact absurd h hv
      rcases hs : stringifyVal v with _ | s
      · exact absurd ((stringifyVal_none_iff v).mp hs) hv
      · simp [List.filter_cons, hv2, stringifyFields, hs, ih]

/-- C4 (corrected): serializing a payload object never raises - the
result is always a string - and the fields whose values have no
deterministic encoding (the `undefined`-like values) are silently
dropped: the serialization equals that of the payload with those fields
removed.  Nothing aborts the bundle; see the counterexample for the
end-to-end consequence. -/
theorem stringify_never_fails_and_drops_undef (kvs : List (String × Json)) :
    (∃ s, stringifyVal (Json.obj kvs) = some s) ∧
    stringifyVal (Json.obj (kvs.filter (fun kv => not (isUndef kv.2)))) =
      stringifyVal (Json.obj kvs) := by
  refine ⟨⟨_, rfl⟩, ?_⟩
  simp [stringifyVal, stringifyFields_drop_undef]

/-- C4 counterexample: the payloads of `itemU1` (holding an `undefined`
value under key `x`) and `itemU2` (lacking the key entirely) are
different, yet the local sealer serializes them identically - the
non-encodable value is silently dropped rather than raising a
canonicalization error - and the whole proof build succeeds and is
unchanged, instead of aborting the bundle. -/
theorem undef_payload_is_silently_dropped :
    itemU1.payload ≠ itemU2.payload ∧
    stringifyItem itemU1 = stringifyItem itemU2 ∧
    buildImmutabilityProof hConst clockA [itemU1] =
      buildImmutabilityProof hConst clockA [itemU2] := by
  refine ⟨by simp [itemU1, itemU2], rfl, by decide⟩

/-- C3 counterexample: the payloads `a = 1, b = 2` and `b = 2, a = 1`
are structurally equal - they differ only in object key insertion
order - yet `JSON.stringify` serializes them to different byte
sequences, because the local sealer performs no canonicalization. -/
theorem keyorder_changes_serialization :
    structurallyEqual payloadAB payloadBA ∧
      stringifyVal payloadAB ≠ stringifyVal payloadBA := by
  exact ⟨by unfold structurallyEqual; rfl, by decide⟩

theorem foldl_append_data (l : List String) : ∀ (s : String),
    (l.foldl (fun r t => r ++ t) s).data = s.data ++ (l.map String.data).flatten := by
  induction l with
  | nil => intro s; simp
  | cons t rest ih => intro s; simp [ih]

theorem join_data (l : List String) :
    (String.join l).data = (l.map String.data).flatten := by
  have h := foldl_append_data l ""
  simpa [String.join] using h

theorem string_data_injective : Function.Injective String.data := by
  intro a b h
  cases a
  cases b
  exact congrArg String.mk h

theorem uniform_flatten_inj (L : Nat) : ∀ (l1 l2 : List (List Char)),
    (∀ x ∈ l1, x.length = L) → (∀ x ∈ l2, x.length = L) →
    l1.length = l2.length → l1.flatten = l2.flatten → l1 = l2 := by
  intro l1
  induction l1 with
  | nil =>
    intro l2 _ _ hlen _
    cases l2 with
    | nil => rfl
    | cons y ys => simp at hlen
  | cons x xs ih =>
    intro l2 h1 h2 hlen hflat
    cases l2 with
    | nil => simp at hlen
    | cons y ys =>
      have hx : x.length = y.length := by
        rw [h1 x (by simp), h2 y (by simp)]
      have hsplit := List.append_inj hflat hx
      have hxy : x = y := hsplit.1
      have htail : xs = ys := by
        refine ih ys (fun z hz => h1 z (by simp [hz])) (fun z hz => h2 z (by simp [hz])) ?_ hsplit.2
        simpa using hlen
      rw [hxy, htail]

theorem uniform_join_inj (L : Nat) (l1 l2 : List String)
    (h1 : ∀ x ∈ l1, x.length = L) (h2 : ∀ x ∈ l2, x.length = L)
    (hlen : l1.length = l2.length) (hjoin : String.join l1 = String.join l2) :
    l1 = l2 := by
  have hdata : (l1.map String.data).flatten = (l2.map String.data).flatten := by
    rw [← join_data, ← join_data, hjoin]
  have hmap : l1.map String.data = l2.map String.data := by
    refine uniform_flatten_inj L (l1.map String.data) (l2.map String.data) ?_ ?_ (by simp [hlen]) hdata
    · intro z hz
      rcases List.mem_map.mp hz with ⟨s, hs, rfl⟩
      exact h1 s hs
    · intro z hz
      rcases List.mem_map.mp hz with ⟨s, hs, rfl⟩
      exact h2 s hs
  exact List.map_injective_iff.mpr string_data_injective hmap

theorem map_swapItems {γ δ : Type} (f : γ → δ) (xs : List γ) (k l : Nat) :
    (swapItems xs k l).map f = swapItems (xs.map f) k l := by
  unfold swapItems
  cases hk : xs[k]? with
  | none =>
    simp [List.getElem?_map, hk]
  | some a =>
    cases hl : xs[l]? with
    | none =>
      simp [List.getElem?_map, hk, hl]
    | some b =>
      simp only [List.getElem?_map, hk, hl]
      rw [List.map_set, List.map_set]
      rfl

/-- C6 (corrected): swapping two items whose serialized forms receive
different hashes changes the input of the root hash - the concatenation
of the link hashes - and can leave the root hash itself unchanged only
if the hash function collides on two explicitly distinct strings (for
SHA-256, a collision).  The hypothesis on the two items is their hash
disagreement rather than bare distinctness because items that differ
only in `undefined`-valued payload entries serialize identically and
provably do not move the root (see the counterexample). -/
theorem swap_changes_root_input (H : String → String) (clock : Nat → String)
    (items : List EvidenceItem) (k l L : Nat)
    (hk : k < items.length) (hl : l < items.length) (hkl : k ≠ l)
    (hLen : ∀ s, (H s).length = L)
    (hne : H (stringifyItem (items.get ⟨k, hk⟩)) ≠
      H (stringifyItem (items.get ⟨l, hl⟩))) :
    String.join ((buildImmutabilityProof H clock (swapItems items k l)).chain.map
        HashChainLink.hash) ≠
      String.join ((buildImmutabilityProof H clock items).chain.map
        HashChainLink.hash) ∧
    ((buildImmutabilityProof H clock (swapItems items k l)).rootHash =
        (buildImmutabilityProof H clock items).rootHash →
      ∃ x y : String, x ≠ y ∧ H x = H y) := by
  have hmap1 : (buildImmutabilityProof H clock (swapItems items k l)).chain.map
      HashChainLink.hash = swapItems (items.map (fun it => H (stringifyItem it))) k l := by
    rw [buildImmutabilityProof_chain, buildChainGo_map_hash, map_swapItems]
  have hmap2 : (buildImmutabilityProof H clock items).chain.map HashChainLink.hash =
      items.map (fun it => H (stringifyItem it)) := by
    rw [buildImmutabilityProof_chain, buildChainGo_map_hash]
  have hjk : (items.map (fun it => H (stringifyItem it)))[k]? =
      some (H (stringifyItem (items.get ⟨k, hk⟩))) := by
    rw [List.getElem?_map, List.getElem?_eq_getElem hk]
    rfl
  have hjl : (items.map (fun it => H (stringifyItem it)))[l]? =
      some (H (stringifyItem (items.get ⟨l, hl⟩))) := by
    rw [List.getElem?_map, List.getElem?_eq_getElem hl]
    rfl
  have hklen : k < (items.map (fun it => H (stringifyItem it))).length := by
    simpa using hk
  have hswapne : swapItems (items.map (fun it => H (stringifyItem it))) k l ≠
      items.map (fun it => H (stringifyItem it)) := by
    intro heq
    have hq := congrArg (fun t => t[k]?) heq
    simp only at hq
    unfold swapItems at hq
    rw [hjk, hjl] at hq
    simp only at hq
    rw [List.getElem?_set_ne (Ne.symm hkl), List.getElem?_set_self (by simpa using hk)] at hq
    exact hne (Option.some.inj hq).symm
  have hlenESwap : ∀ x ∈ swapItems (items.map (fun it => H (stringifyItem it))) k l,
      x.length = L := by
    intro x hx
    unfold swapItems at hx
    rw [hjk, hjl] at hx
    simp only at hx
    rcases List.mem_or_eq_of_mem_set hx with hx2 | rfl
    · rcases List.mem_or_eq_of_mem_set hx2 with hx3 | rfl
      · rcases List.mem_map.mp hx3 with ⟨it, _, rfl⟩
        exact hLen _
      · exact hLen _
    · exact hLen _
  have hlenE : ∀ x ∈ items.map (fun it => H (stringifyItem it)), x.length = L := by
    intro x hx
    rcases List.mem_map.mp hx with ⟨it, _, rfl⟩
    exact hLen _
  have hlistlen : (swapItems (items.map (fun it => H (stringifyItem it))) k l).length =
      (items.map (fun it => H (stringifyItem it))).length := by
    unfold swapItems
    rw [hjk, hjl]
    simp
  have hjoin : String.join (swapItems (items.map (fun it => H (stringifyItem it))) k l) ≠
      String.join (items.map (fun it => H (stringifyItem it))) := by
    intro hj
    exact hswapne (uniform_join_inj L _ _ hlenESwap hlenE hlistlen hj)
  constructor
  · rw [hmap1, hmap2]
    exact hjoin
  · intro hroot
    refine ⟨String.join (swapItems (items.map (fun it => H (stringifyItem it))) k l),
      String.join (items.map (fun it => H (stringifyItem it))), hjoin, ?_⟩
    have e1 : (buildImmutabilityProof H clock (swapItems items k l)).rootHash =
        H (String.join ((buildImmutabilityProof H clock (swapItems items k l)).chain.map
          HashChainLink.hash)) := rfl
    have e2 : (buildImmutabilityProof H clock items).rootHash =
        H (String.join ((buildImmutabilityProof H clock items).chain.map
          HashChainLink.hash)) := rfl
    rw [e1, e2, hmap1, hmap2] at hroot
    exact hroot

/-- C6 witness: at the concrete two-item sequence `[itemA, itemB]`, with
the injective-on-these-inputs fixed-length hash `hPad`, swapping the two
items changes the concatenated-hash root input. -/
theorem swap_changes_root_input_witness :
    String.join ((buildImmutabilityProof hPad clockA
        (swapItems [itemA, itemB] 0 1)).chain.map HashChainLink.hash) ≠
      String.join ((buildImmutabilityProof hPad clockA [itemA, itemB]).chain.map
        HashChainLink.hash) :=
  (swap_changes_root_input hPad clockA [itemA, itemB] 0 1 64
    (by decide) (by decide) (by decide)
    (by intro s; unfold hPad; split <;> rfl)
    (by decide)).1

/-- C6 counterexample: `itemU1` and `itemU2` are distinct items (their
payloads differ), yet because their serializations coincide - the
`undefined`-valued entry is dropped - swapping them leaves the root hash
unchanged.  The hash function used here is the identity, which is
injective, so the unchanged root cannot be blamed on a hash collision;
the hash inputs themselves are equal, so the root is unchanged under any
hash function, SHA-256 included. -/
theorem swap_of_collapsing_items_preserves_root :
    itemU1 ≠ itemU2 ∧
    (buildImmutabilityProof hId clockA (swapItems [itemU1, itemU2] 0 1)).rootHash =
      (buildImmutabilityProof hId clockA [itemU1, itemU2]).rootHash := by
  constructor
  · intro h
    have hp := congrArg EvidenceItem.payload h
    simp [itemU1, itemU2] at hp
  · decide

theorem zipWith_bundle_inputs : ∀ (its : List EvidenceItem)
    (lns : List SchemaHashChainLink), its.length = lns.length →
    (List.zipWith (fun it ln =>
      ({ item_id := it.id, sequence := ln.sequence, content_type := it.kind,
         content := Json.obj it.payload,
         content_hash := ln.content_hash } : SpecBundleItem)) its lns).map
        bundleItemInput = its.map itemInput := by
  intro its
  induction its with
  | nil => intro lns h; rfl
  | cons it rest ih =>
    intro lns h
    cases lns with
    | nil => simp at h
    | cons ln lrest =>
      simp only [List.zipWith, List.map]
      rw [ih lrest (by simpa using h)]
      rfl

theorem firstDivergence_self : ∀ (l : List SchemaHashChainLink),
    firstDivergence l l = none := by
  intro l
  induction l with
  | nil => rfl
  | cons a rest ih => simp [firstDivergence, ih]

/-- C9 (confirmed, spec-modelled): for every non-empty item sequence,
verifying the bundle assembled from it by the reference core yields
`valid`.  The verifier recomputes the whole proof from the bundle's own
items (never reading a stored hash except to compare it against the
recomputation) and returns a first-class result. -/
theorem verify_roundtrip (H : String → String) (bid cat : String)
    (items : List EvidenceItem) (b : SpecBundle)
    (_hne : items ≠ []) (hs : specSeal H bid cat items = some b) :
    verifyBundle H b = VerifyResult.valid := by
  unfold specSeal at hs
  rcases hpf : specBuildProof H (items.map itemInput) with _ | proof
  · rw [hpf] at hs
    cases hs
  rw [hpf] at hs
  simp only [Option.some_bind] at hs
  unfold specAssemble at hs
  by_cases hlen : items.length ≠ proof.hash_chain.length
  · rw [if_pos hlen] at hs
    cases hs
  rw [if_neg hlen] at hs
  by_cases hids : ¬ idsAligned items proof.hash_chain
  · rw [if_pos hids] at hs
    cases hs
  rw [if_neg hids] at hs
  have hlen2 : items.length = proof.hash_chain.length := by
    by_contra hcon
    exact hlen hcon
  rcases Option.some.inj hs with rfl
  unfold verifyBundle
  rw [if_neg (by simp)]
  rw [if_neg (by simp [List.length_zipWith, hlen2])]
  rw [zipWith_bundle_inputs items proof.hash_chain hlen2, hpf]
  simp [firstDivergence_self]

/-- C9 witness: sealing the concrete one-item sequence `[itemA]` with
the identity stand-in hash succeeds, and verifying the resulting bundle
yields `valid`. -/
theorem verify_roundtrip_witness :
    verifyBundle hId ((specSeal hId "b0" "t0" [itemA]).getD bundleDefault) =
      VerifyResult.valid :=
  verify_roundtrip hId "b0" "t0" [itemA]
    ((specSeal hId "b0" "t0" [itemA]).getD bundleDefault)
    (by simp) rfl

theorem natCharsAux_stable (n : Nat) : ∀ (f1 f2 : Nat), n ≤ f1 → n ≤ f2 →
    natCharsAux f1 n = natCharsAux f2 n := by
  induction n using Nat.strong_induction_on with
  | _ n ih =>
    intro f1 f2 h1 h2
    match f1, f2 with
    | 0, 0 => rfl
    | 0, f2 + 1 =>
      have hn : n = 0 := by omega
      subst hn
      simp [natCharsAux]
    | f1 + 1, 0 =>
      have hn : n = 0 := by omega
      subst hn
      simp [natCharsAux]
    | f1 + 1, f2 + 1 =>
      by_cases hn : n < 10
      · simp [natCharsAux, hn]
      · have hd : n / 10 < n := Nat.div_lt_self (by omega) (by omega)
        simp only [natCharsAux, if_neg hn]
        rw [ih (n / 10) hd f1 f2 (by omega) (by omega)]

theorem natChars_unfold (n : Nat) : natChars n =
    if n < 10 then [digitChar n]
    else natChars (n / 10) ++ [digitChar (n % 10)] := by
  unfold natChars
  by_cases hn : n < 10
  · rw [if_pos hn]
    cases n with
    | zero => rfl
    | succ m => simp [natCharsAux, hn]
  · rw [if_neg hn]
    cases n with
    | zero => omega
    | succ m =>
      have hdiv : (m + 1) / 10 < m + 1 := Nat.div_lt_self (by omega) (by omega)
      simp only [natCharsAux, if_neg hn]
      rw [natCharsAux_stable ((m + 1) / 10) m ((m + 1) / 10) (by omega) (le_refl _)]

theorem digitChar_digit (d : Nat) (h : d < 10) : isDigitChar (digitChar d) = true := by
  interval_cases d <;> decide

theorem digitChar_toNat (d : Nat) (h : d < 10) : (digitChar d).toNat = 48 + d := by
  interval_cases d <;> decide

theorem natChars_digits (n : Nat) : ∀ c ∈ natChars n, isDigitChar c = true := by
  induction n using Nat.strong_induction_on with
  | _ n ih =>
    intro c hc
    rw [natChars_unfold] at hc
    by_cases hn : n < 10
    · rw [if_pos hn] at hc
      rcases List.mem_singleton.mp hc with rfl
      exact digitChar_digit n hn
    · rw [if_neg hn] at hc
      rcases List.mem_append.mp hc with hc2 | hc2
      · exact ih (n / 10) (Nat.div_lt_self (by omega) (by omega)) c hc2
      · rcases List.mem_singleton.mp hc2 with rfl
        exact digitChar_digit (n % 10) (Nat.mod_lt n (by omega))

theorem natChars_ne_nil (n : Nat) : natChars n ≠ [] := by
  rw [natChars_unfold]
  by_cases hn : n < 10
  · simp [hn]
  · simp [hn]

theorem digitsVal_append (a : List Char) (d : Char) :
    digitsVal (a ++ [d]) = 10 * digitsVal a + (d.toNat - 48) := by
  simp [digitsVal, List.foldl_append]

theorem digitsVal_natChars (n : Nat) : digitsVal (natChars n) = n := by
  induction n using Nat.strong_induction_on with
  | _ n ih =>
    rw [natChars_unfold]
    by_cases hn : n < 10
    · rw [if_pos hn]
      simp [digitsVal, digitChar_toNat n hn]
    · rw [if_neg hn]
      rw [digitsVal_append, ih (n / 10) (Nat.div_lt_self (by omega) (by omega)),
        digitChar_toNat (n % 10) (Nat.mod_lt n (by omega))]
      have := Nat.div_add_mod n 10
      omega

theorem natChars_inj {m n : Nat} (h : natChars m = natChars n) : m = n := by
  have h2 := congrArg digitsVal h
  rwa [digitsVal_natChars, digitsVal_natChars] at h2

theorem digit_not_term (c : Char) (h : isDigitChar c = true) :
    ((c == ',') || (c == ']') || (c == rbrace)) = false := by
  have h1 : c ≠ ',' := fun e => absurd (e ▸ h) (by decide)
  have h2 : c ≠ ']' := fun e => absurd (e ▸ h) (by decide)
  have h3 : c ≠ rbrace := fun e => absurd (e ▸ h) (by decide)
  simp [h1, h2, h3]

theorem digits_run_inj : ∀ (d1 d2 r1 r2 : List Char),
    (∀ c ∈ d1, isDigitChar c = true) → (∀ c ∈ d2, isDigitChar c = true) →
    d1 ≠ [] → d2 ≠ [] → termRest r1 = true → termRest r2 = true →
    d1 ++ r1 = d2 ++ r2 → d1 = d2 ∧ r1 = r2 := by
  intro d1
  induction d1 with
  | nil =>
    intro d2 r1 r2 _ _ hne
    exact absurd rfl hne
  | cons c cs ih =>
    intro d2 r1 r2 hd1 hd2 _ hne2 ht1 ht2 heq
    cases d2 with
    | nil => exact absurd rfl hne2
    | cons e es =>
      simp only [List.cons_append, List.cons.injEq] at heq
      obtain ⟨hce, htail⟩ := heq
      subst hce
      cases cs with
      | nil =>
        cases es with
        | nil =>
          simp only [List.nil_append] at htail
          exact ⟨rfl, htail⟩
        | cons e2 es2 =>
          exfalso
          simp only [List.nil_append, List.cons_append] at htail
          rw [htail] at ht1
          have hdig : isDigitChar e2 = true := hd2 e2 (by simp)
          rw [show termRest (e2 :: (es2 ++ r2)) =
            ((e2 == ',') || (e2 == ']') || (e2 == rbrace)) from rfl,
            digit_not_term e2 hdig] at ht1
          cases ht1
      | cons c2 cs2 =>
        cases es with
        | nil =>
          exfalso
          simp only [List.nil_append, List.cons_append] at htail
          rw [← htail] at ht2
          have hdig : isDigitChar c2 = true := hd1 c2 (by simp)
          rw [show termRest (c2 :: (cs2 ++ r1)) =
            ((c2 == ',') || (c2 == ']') || (c2 == rbrace)) from rfl,
            digit_not_term c2 hdig] at ht2
          cases ht2
        | cons e2 es2 =>
          have hr := ih (e2 :: es2) r1 r2
            (fun x hx => hd1 x (by simp [hx]))
            (fun x hx => hd2 x (by simp [hx]))
            (by simp) (by simp) ht1 ht2 htail
          exact ⟨by rw [hr.1], hr.2⟩

theorem intChars_inj_rest : ∀ (m n : Int) (r1 r2 : List Char),
    termRest r1 = true → termRest r2 = true →
    intChars m ++ r1 = intChars n ++ r2 → m = n ∧ r1 = r2 := by
  intro m n r1 r2 ht1 ht2 heq
  cases m with
  | ofNat a =>
    cases n with
    | ofNat b =>
      have hr := digits_run_inj (natChars a) (natChars b) r1 r2
        (natChars_digits a) (natChars_digits b)
        (natChars_ne_nil a) (natChars_ne_nil b) ht1 ht2 heq
      exact ⟨congrArg Int.ofNat (natChars_inj hr.1), hr.2⟩
    | negSucc b =>
      exfalso
      rcases hcons : natChars a with _ | ⟨c, cs⟩
      · exact natChars_ne_nil a hcons
      · have hd : isDigitChar c = true := by
          refine natChars_digits a c ?_
          rw [hcons]
          simp
        rw [show intChars (Int.ofNat a) = natChars a from rfl, hcons] at heq
        rw [show intChars (Int.negSucc b) = '-' :: natChars (b + 1) from rfl] at heq
        simp only [List.cons_append, List.cons.injEq] at heq
        rw [heq.1] at hd
        exact absurd hd (by decide)
  | negSucc a =>
    cases n with
    | ofNat b =>
      exfalso
      rcases hcons : natChars b with _ | ⟨c, cs⟩
      · exact natChars_ne_nil b hcons
      · have hd : isDigitChar c = true := by
          refine natChars_digits b c ?_
          rw [hcons]
          simp
        rw [show intChars (Int.ofNat b) = natChars b from rfl, hcons] at heq
        rw [show intChars (Int.negSucc a) = '-' :: natChars (a + 1) from rfl] at heq
        simp only [List.cons_append, List.cons.injEq] at heq
        rw [← heq.1] at hd
        exact absurd hd (by decide)
    | negSucc b =>
      rw [show intChars (Int.negSucc a) = '-' :: natChars (a + 1) from rfl,
        show intChars (Int.negSucc b) = '-' :: natChars (b + 1) from rfl] at heq
      simp only [List.cons_append, List.cons.injEq, true_and] at heq
      have hr := digits_run_inj (natChars (a + 1)) (natChars (b + 1)) r1 r2
        (natChars_digits (a + 1)) (natChars_digits (b + 1))
        (natChars_ne_nil (a + 1)) (natChars_ne_nil (b + 1)) ht1 ht2 heq
      have hab : a = b := by
        have := natChars_inj hr.1
        omega
      exact ⟨by rw [hab], hr.2⟩

theorem char_toNat_inj (a b : Char) (h : a.toNat = b.toNat) : a = b :=
  Char.ext (UInt32.ext h)

theorem hexChar_inj (a b : Nat) (ha : a < 16) (hb : b < 16)
    (h : hexChar a = hexChar b) : a = b := by
  interval_cases a <;> interval_cases b <;> revert h <;> decide

theorem escChar_shape (c : Char) :
    (escChar c = [c] ∧ c ≠ '"' ∧ c ≠ '\\' ∧ ¬ c.toNat < 32) ∨
    (∃ t, escChar c = ['\\', t] ∧ namedEsc t = some c) ∨
    (escChar c = ['\\', 'u', '0', '0', hexChar (c.toNat / 16),
        hexChar (c.toNat % 16)] ∧
      c.toNat < 32 ∧ ∀ t, namedEsc t ≠ some c) := by
  unfold escChar
  by_cases h1 : c = '"'
  · rw [if_pos h1]
    subst h1
    exact Or.inr (Or.inl ⟨'"', rfl, rfl⟩)
  rw [if_neg h1]
  by_cases h2 : c = '\\'
  · rw [if_pos h2]
    subst h2
    exact Or.inr (Or.inl ⟨'\\', rfl, rfl⟩)
  rw [if_neg h2]
  by_cases h3 : c = Char.ofNat 8
  · rw [if_pos h3]
    subst h3
    exact Or.inr (Or.inl ⟨'b', rfl, rfl⟩)
  rw [if_neg h3]
  by_cases h4 : c = Char.ofNat 12
  · rw [if_pos h4]
    subst h4
    exact Or.inr (Or.inl ⟨'f', rfl, rfl⟩)
  rw [if_neg h4]
  by_cases h5 : c = Char.ofNat 10
  · rw [if_pos h5]
    subst h5
    exact Or.inr (Or.inl ⟨'n', rfl, rfl⟩)
  rw [if_neg h5]
  by_cases h6 : c = Char.ofNat 13
  · rw [if_pos h6]
    subst h6
    exact Or.inr (Or.inl ⟨'r', rfl, rfl⟩)
  rw [if_neg h6]
  by_cases h7 : c = Char.ofNat 9
  · rw [if_pos h7]
    subst h7
    exact Or.inr (Or.inl ⟨'t', rfl, rfl⟩)
  rw [if_neg h7]
  by_cases h8 : c.toNat < 32
  · rw [if_pos h8]
    refine Or.inr (Or.inr ⟨rfl, h8, ?_⟩)
    intro t ht
    unfold namedEsc at ht
    split at ht
    all_goals first
      | exact h1 (Option.some.inj ht).symm
      | exact h2 (Option.some.inj ht).symm
      | exact h3 (Option.some.inj ht).symm
      | exact h4 (Option.some.inj ht).symm
      | exact h5 (Option.some.inj ht).symm
      | exact h6 (Option.some.inj ht).symm
      | exact h7 (Option.some.inj ht).symm
      | cases ht
  · rw [if_neg h8]
    exact Or.inl ⟨rfl, h1, h2, h8⟩

theorem escChar_append_inj (c1 c2 : Char) (X1 X2 : List Char)
    (h : escChar c1 ++ X1 = escChar c2 ++ X2) : c1 = c2 ∧ X1 = X2 := by
  rcases escChar_shape c1 with ⟨e1, q1, b1, n1⟩ | ⟨t1, e1, m1⟩ | ⟨e1, n1, m1⟩ <;>
    rcases escChar_shape c2 with ⟨e2, q2, b2, n2⟩ | ⟨t2, e2, m2⟩ | ⟨e2, n2, m2⟩ <;>
    rw [e1, e2] at h <;> simp only [List.cons_append, List.nil_append,
      List.cons.injEq] at h
  · exact ⟨h.1, h.2⟩
  · exact absurd h.1 b1
  · exact absurd h.1 b1
  · exact absurd h.1.symm b2
  · obtain ⟨-, ht, hx⟩ := h
    subst ht
    rw [m1] at m2
    exact ⟨Option.some.inj m2, hx⟩
  · obtain ⟨-, ht, -⟩ := h
    subst ht
    rw [show namedEsc 'u' = (none : Option Char) from rfl] at m1
    cases m1
  · exact absurd h.1.symm b2
  · obtain ⟨-, ht, -⟩ := h
    subst ht
    rw [show namedEsc 'u' = (none : Option Char) from rfl] at m2
    cases m2
  · obtain ⟨-, -, -, -, hh1, hh2, hx⟩ := h
    have hd1 : c1.toNat / 16 = c2.toNat / 16 :=
      hexChar_inj _ _ (by omega) (by omega) hh1
    have hd2 : c1.toNat % 16 = c2.toNat % 16 :=
      hexChar_inj _ _ (by omega) (by omega) hh2
    have hnn : c1.toNat = c2.toNat := by omega
    exact ⟨char_toNat_inj c1 c2 hnn, hx⟩

theorem escFlat_inj : ∀ (s1 s2 r1 r2 : List Char),
    s1.flatMap escChar ++ ('"' :: r1) = s2.flatMap escChar ++ ('"' :: r2) →
    s1 = s2 ∧ r1 = r2 := by
  intro s1
  induction s1 with
  | nil =>
    intro s2 r1 r2 h
    cases s2 with
    | nil => simpa using h
    | cons c cs =>
      exfalso
      rw [List.flatMap_cons, List.flatMap_nil, List.nil_append,
        List.append_assoc] at h
      rcases escChar_shape c with ⟨e, hq, _, _⟩ | ⟨t, e, _⟩ | ⟨e, _, _⟩ <;>
        rw [e] at h <;> simp only [List.cons_append, List.cons.injEq] at h
      · exact hq h.1.symm
      · exact absurd h.1 (by decide)
      · exact absurd h.1 (by decide)
  | cons c cs ih =>
    intro s2 r1 r2 h
    cases s2 with
    | nil =>
      exfalso
      rw [List.flatMap_cons, List.flatMap_nil, List.nil_append,
        List.append_assoc] at h
      rcases escChar_shape c with ⟨e, hq, _, _⟩ | ⟨t, e, _⟩ | ⟨e, _, _⟩ <;>
        rw [e] at h <;> simp only [List.cons_append, List.cons.injEq] at h
      · exact hq h.1
      · exact absurd h.1.symm (by decide)
      · exact absurd h.1.symm (by decide)
    | cons e es =>
      rw [List.flatMap_cons, List.flatMap_cons, List.append_assoc,
        List.append_assoc] at h
      obtain ⟨rfl, htail⟩ := escChar_append_inj c e _ _ h
      obtain ⟨hs, hr⟩ := ih es r1 r2 htail
      exact ⟨by rw [hs], hr⟩

theorem quoteChars_inj (s1 s2 : String) (r1 r2 : List Char)
    (h : quoteChars s1 ++ r1 = quoteChars s2 ++ r2) : s1 = s2 ∧ r1 = r2 := by
  unfold quoteChars at h
  simp only [List.cons_append, List.append_assoc, List.singleton_append,
    List.cons.injEq, true_and] at h
  obtain ⟨hs, hr⟩ := escFlat_inj s1.data s2.data r1 r2 h
  exact ⟨string_data_injective hs, hr⟩

theorem headTag_digit (c : Char) (h : isDigitChar c = true) : headTag c = 2 := by
  have h1 : c ≠ 'n' := fun e => absurd (e ▸ h) (by decide)
  have h2 : c ≠ 't' := fun e => absurd (e ▸ h) (by decide)
  have h3 : c ≠ 'f' := fun e => absurd (e ▸ h) (by decide)
  unfold headTag
  rw [if_neg h1, if_neg h2, if_neg h3, if_pos h]

theorem ctorTag_le (v : Json) (h : noUndef v = true) : ctorTag v ≤ 5 := by
  cases v <;> simp [ctorTag] at h ⊢
  exact absurd h (by simp [noUndef])

theorem stringifyVal_shape (v : Json) (hnu : noUndef v = true) :
    ∃ c rest, stringifyVal v = some (c :: rest) ∧ headTag c = ctorTag v := by
  cases v with
  | null => exact ⟨'n', _, rfl, by decide⟩
  | bool b =>
    cases b with
    | true => exact ⟨'t', _, rfl, by decide⟩
    | false => exact ⟨'f', _, rfl, by decide⟩
  | num n =>
    cases n with
    | ofNat m =>
      rcases hc : natChars m with _ | ⟨c, cs⟩
      · exact absurd hc (natChars_ne_nil m)
      · have hdig : isDigitChar c = true := by
          refine natChars_digits m c ?_
          rw [hc]
          simp
        refine ⟨c, cs, ?_, headTag_digit c hdig⟩
        show some (intChars (Int.ofNat m)) = some (c :: cs)
        rw [show intChars (Int.ofNat m) = natChars m from rfl, hc]
    | negSucc m => exact ⟨'-', natChars (m + 1), rfl, rfl⟩
  | str s => exact ⟨'"', s.data.flatMap escChar ++ ['"'], rfl, rfl⟩
  | arr xs => exact ⟨'[', commaJoin (stringifyElems xs) ++ [']'], rfl, rfl⟩
  | obj kvs =>
    exact ⟨lbrace, commaJoin (stringifyFields kvs) ++ [rbrace], rfl, rfl⟩
  | undef => cases hnu

theorem noUndefElems_cons {v : Json} {vs : List Json}
    (h : noUndefElems (v :: vs) = true) :
    noUndef v = true ∧ noUndefElems vs = true := by
  have h2 := h
  simp only [noUndefElems, Bool.and_eq_true] at h2
  exact h2

theorem noUndefFields_cons {k : String} {v : Json} {kvs : List (String × Json)}
    (h : noUndefFields ((k, v) :: kvs) = true) :
    noUndef v = true ∧ noUndefFields kvs = true := by
  have h2 := h
  simp only [noUndefFields, Bool.and_eq_true] at h2
  exact h2

theorem stringifyElems_cons_eq {v : Json} {vs : List Json} {sv : List Char}
    (h : stringifyVal v = some sv) :
    stringifyElems (v :: vs) = sv :: stringifyElems vs := by
  simp [stringifyElems, h]

theorem stringifyFields_cons_eq {k : String} {v : Json}
    {kvs : List (String × Json)} {sv : List Char}
    (h : stringifyVal v = some sv) :
    stringifyFields ((k, v) :: kvs) =
      (quoteChars k ++ (':' :: sv)) :: stringifyFields kvs := by
  simp [stringifyFields, h]

theorem commaJoin_single_append (a r : List Char) :
    commaJoin [a] ++ r = a ++ r := by
  simp [commaJoin]

theorem commaJoin_cons_append (a b : List Char) (l : List (List Char))
    (r : List Char) :
    commaJoin (a :: b :: l) ++ r = a ++ (',' :: (commaJoin (b :: l) ++ r)) := by
  simp [commaJoin, List.append_assoc]

theorem commaJoin_cons_ex (a : List Char) (l : List (List Char)) :
    ∃ X, commaJoin (a :: l) = a ++ X := by
  cases l with
  | nil => exact ⟨[], by simp [commaJoin]⟩
  | cons b bs => exact ⟨',' :: commaJoin (b :: bs), rfl⟩

theorem termRest_comma (X : List Char) : termRest (',' :: X) = true := rfl

theorem termRest_rbracket (X : List Char) : termRest (']' :: X) = true := rfl

theorem termRest_rbrace (X : List Char) : termRest (rbrace :: X) = true := rfl

theorem serializeInjAux : ∀ (N : Nat),
    (∀ (v w : Json) (sv sw r1 r2 : List Char), sizeOf v ≤ N →
      noUndef v = true → noUndef w = true →
      stringifyVal v = some sv → stringifyVal w = some sw →
      termRest r1 = true → termRest r2 = true →
      sv ++ r1 = sw ++ r2 → v = w ∧ r1 = r2) ∧
    (∀ (xs ys : List Json) (r1 r2 : List Char), sizeOf xs ≤ N →
      noUndefElems xs = true → noUndefElems ys = true →
      commaJoin (stringifyElems xs) ++ (']' :: r1) =
        commaJoin (stringifyElems ys) ++ (']' :: r2) →
      xs = ys ∧ r1 = r2) ∧
    (∀ (kvs lvs : List (String × Json)) (r1 r2 : List Char), sizeOf kvs ≤ N →
      noUndefFields kvs = true → noUndefFields lvs = true →
      commaJoin (stringifyFields kvs) ++ (rbrace :: r1) =
        commaJoin (stringifyFields lvs) ++ (rbrace :: r2) →
      kvs = lvs ∧ r1 = r2) := by
  intro N
  induction N using Nat.strong_induction_on with
  | _ N ih =>
  refine ⟨?_, ?_, ?_⟩
  · intro v w sv sw r1 r2 hN hv hw hsv hsw ht1 ht2 heq
    obtain ⟨c1, rest1, hs1, htag1⟩ := stringifyVal_shape v hv
    obtain ⟨c2, rest2, hs2, htag2⟩ := stringifyVal_shape w hw
    have hsv1 : sv = c1 :: rest1 := by
      rw [hsv] at hs1
      exact Option.some.inj hs1
    have hsw1 : sw = c2 :: rest2 := by
      rw [hsw] at hs2
      exact Option.some.inj hs2
    have hc : c1 = c2 := by
      have hh := congrArg List.head? heq
      rw [hsv1, hsw1] at hh
      simpa using hh
    have htags : ctorTag v = ctorTag w := by rw [← htag1, ← htag2, hc]
    clear hs1 hs2 htag1 htag2 hc hsv1 hsw1
    cases v <;> cases w
    all_goals try exact Bool.noConfusion hv
    all_goals try exact Bool.noConfusion hw
    all_goals try (simp only [ctorTag] at htags; exact absurd htags (by decide))
    · -- null / null
      have e1 : sv = ['n', 'u', 'l', 'l'] := (Option.some.inj hsv).symm
      have e2 : sw = ['n', 'u', 'l', 'l'] := (Option.some.inj hsw).symm
      rw [e1, e2] at heq
      simp only [List.cons_append, List.cons.injEq, true_and] at heq
      exact ⟨rfl, heq⟩
    · -- bool / bool
      rename_i b1 b2
      cases b1 <;> cases b2
      · have e1 : sv = ['f', 'a', 'l', 's', 'e'] := (Option.some.inj hsv).symm
        have e2 : sw = ['f', 'a', 'l', 's', 'e'] := (Option.some.inj hsw).symm
        rw [e1, e2] at heq
        simp only [List.cons_append, List.cons.injEq, true_and] at heq
        exact ⟨rfl, heq⟩
      · simp only [ctorTag] at htags
        have e1 : sv = ['f', 'a', 'l', 's', 'e'] := (Option.some.inj hsv).symm
        have e2 : sw = ['t', 'r', 'u', 'e'] := (Option.some.inj hsw).symm
        rw [e1, e2] at heq
        simp only [List.cons_append, List.cons.injEq] at heq
        exact absurd heq.1 (by decide)
      · have e1 : sv = ['t', 'r', 'u', 'e'] := (Option.some.inj hsv).symm
        have e2 : sw = ['f', 'a', 'l', 's', 'e'] := (Option.some.inj hsw).symm
        rw [e1, e2] at heq
        simp only [List.cons_append, List.cons.injEq] at heq
        exact absurd heq.1 (by decide)
      · have e1 : sv = ['t', 'r', 'u', 'e'] := (Option.some.inj hsv).symm
        have e2 : sw = ['t', 'r', 'u', 'e'] := (Option.some.inj hsw).symm
        rw [e1, e2] at heq
        simp only [List.cons_append, List.cons.injEq, true_and] at heq
        exact ⟨rfl, heq⟩
    · -- num / num
      rename_i n m
      have e1 : sv = intChars n := (Option.some.inj hsv).symm
      have e2 : sw = intChars m := (Option.some.inj hsw).symm
      rw [e1, e2] at heq
      obtain ⟨hnm, hr⟩ := intChars_inj_rest n m r1 r2 ht1 ht2 heq
      exact ⟨by rw [hnm], hr⟩
    · -- str / str
      rename_i s1 s2
      have e1 : sv = quoteChars s1 := (Option.some.inj hsv).symm
      have e2 : sw = quoteChars s2 := (Option.some.inj hsw).symm
      rw [e1, e2] at heq
      obtain ⟨hs, hr⟩ := quoteChars_inj s1 s2 r1 r2 heq
      exact ⟨by rw [hs], hr⟩
    · -- arr / arr
      rename_i xs ys
      have e1 : sv = '[' :: (commaJoin (stringifyElems xs) ++ [']']) :=
        (Option.some.inj hsv).symm
      have e2 : sw = '[' :: (commaJoin (stringifyElems ys) ++ [']']) :=
        (Option.some.inj hsw).symm
      rw [e1, e2] at heq
      simp only [List.cons_append, List.cons.injEq, true_and, List.append_assoc,
        List.singleton_append] at heq
      have hlt : sizeOf xs < N := by
        have hs0 : sizeOf xs < sizeOf (Json.arr xs) := by simp_arith
        omega
      obtain ⟨hxy, hr⟩ := (ih (sizeOf xs) hlt).2.1 xs ys r1 r2 (le_refl _) hv hw heq
      exact ⟨by rw [hxy], hr⟩
    · -- obj / obj
      rename_i kvs lvs
      have e1 : sv = lbrace :: (commaJoin (stringifyFields kvs) ++ [rbrace]) :=
        (Option.some.inj hsv).symm
      have e2 : sw = lbrace :: (commaJoin (stringifyFields lvs) ++ [rbrace]) :=
        (Option.some.inj hsw).symm
      rw [e1, e2] at heq
      simp only [List.cons_append, List.cons.injEq, true_and, List.append_assoc,
        List.singleton_append] at heq
      have hlt : sizeOf kvs < N := by
        have hs0 : sizeOf kvs < sizeOf (Json.obj kvs) := by simp_arith
        omega
      obtain ⟨hkl, hr⟩ := (ih (sizeOf kvs) hlt).2.2 kvs lvs r1 r2 (le_refl _) hv hw heq
      exact ⟨by rw [hkl], hr⟩
  · intro xs ys r1 r2 hN h1 h2 heq
    cases xs with
    | nil =>
      cases ys with
      | nil =>
        simp only [stringifyElems, commaJoin, List.nil_append,
          List.cons.injEq, true_and] at heq
        exact ⟨rfl, heq⟩
      | cons w ws =>
        exfalso
        obtain ⟨hw1, hw2⟩ := noUndefElems_cons h2
        obtain ⟨c, rest, hsc, htagc⟩ := stringifyVal_shape w hw1
        obtain ⟨X, hX⟩ := commaJoin_cons_ex (c :: rest) (stringifyElems ws)
        rw [stringifyElems_cons_eq hsc, hX] at heq
        simp only [stringifyElems, commaJoin, List.nil_append, List.cons_append,
          List.cons.injEq] at heq
        rw [← heq.1] at htagc
        have hle := ctorTag_le w hw1
        have h6 : headTag ']' = 6 := by decide
        omega
    | cons v vs =>
      cases ys with
      | nil =>
        exfalso
        obtain ⟨hv1, hv2⟩ := noUndefElems_cons h1
        obtain ⟨c, rest, hsc, htagc⟩ := stringifyVal_shape v hv1
        obtain ⟨X, hX⟩ := commaJoin_cons_ex (c :: rest) (stringifyElems vs)
        rw [stringifyElems_cons_eq hsc, hX] at heq
        simp only [stringifyElems, commaJoin, List.nil_append, List.cons_append,
          List.cons.injEq] at heq
        rw [heq.1] at htagc
        have hle := ctorTag_le v hv1
        have h6 : headTag ']' = 6 := by decide
        omega
      | cons w ws =>
        obtain ⟨hv1, hv2⟩ := noUndefElems_cons h1
        obtain ⟨hw1, hw2⟩ := noUndefElems_cons h2
        obtain ⟨c1, rest1, hs1, -⟩ := stringifyVal_shape v hv1
        obtain ⟨c2, rest2, hs2, -⟩ := stringifyVal_shape w hw1
        rw [stringifyElems_cons_eq hs1, stringifyElems_cons_eq hs2] at heq
        cases vs with
        | nil =>
          cases ws with
          | nil =>
            rw [show stringifyElems ([] : List Json) = [] from rfl,
              commaJoin_single_append, commaJoin_single_append] at heq
            have hltv : sizeOf v < N := by
              have htmp := hN
              simp_arith at htmp
              omega
            obtain ⟨hvw, hr⟩ := (ih (sizeOf v) hltv).1 v w _ _ _ _ (le_refl _) hv1 hw1 hs1 hs2
              (termRest_rbracket _) (termRest_rbracket _) heq
            simp only [List.cons.injEq, true_and] at hr
            exact ⟨by rw [hvw], hr⟩
          | cons w2 ws2 =>
            exfalso
            obtain ⟨hw21, hw22⟩ := noUndefElems_cons hw2
            obtain ⟨d2, drest2, hd2, -⟩ := stringifyVal_shape w2 hw21
            rw [stringifyElems_cons_eq hd2] at heq
            rw [show stringifyElems ([] : List Json) = [] from rfl,
              commaJoin_single_append, commaJoin_cons_append] at heq
            have hltv : sizeOf v < N := by
              have htmp := hN
              simp_arith at htmp
              omega
            obtain ⟨hvw, hr⟩ := (ih (sizeOf v) hltv).1 v w _ _ _ _ (le_refl _) hv1 hw1 hs1 hs2
              (termRest_rbracket _) (termRest_comma _) heq
            simp only [List.cons.injEq] at hr
            exact absurd hr.1 (by decide)
        | cons v2 vs2 =>
          cases ws with
          | nil =>
            exfalso
            obtain ⟨hv21, hv22⟩ := noUndefElems_cons hv2
            obtain ⟨d1, drest1, hd1, -⟩ := stringifyVal_shape v2 hv21
            rw [stringifyElems_cons_eq hd1] at heq
            rw [show stringifyElems ([] : List Json) = [] from rfl,
              commaJoin_single_append, commaJoin_cons_append] at heq
            have hltv : sizeOf v < N := by
              have htmp := hN
              simp_arith at htmp
              omega
            obtain ⟨hvw, hr⟩ := (ih (sizeOf v) hltv).1 v w _ _ _ _ (le_refl _) hv1 hw1 hs1 hs2
              (termRest_comma _) (termRest_rbracket _) heq
            simp only [List.cons.injEq] at hr
            exact absurd hr.1 (by decide)
          | cons w2 ws2 =>
            obtain ⟨hv21, hv22⟩ := noUndefElems_cons hv2
            obtain ⟨hw21, hw22⟩ := noUndefElems_cons hw2
            obtain ⟨d1, drest1, hd1, -⟩ := stringifyVal_shape v2 hv21
            obtain ⟨d2, drest2, hd2, -⟩ := stringifyVal_shape w2 hw21
            rw [stringifyElems_cons_eq hd1, stringifyElems_cons_eq hd2,
              commaJoin_cons_append, commaJoin_cons_append] at heq
            have hltv : sizeOf v < N := by
              have htmp := hN
              simp_arith at htmp
              omega
            obtain ⟨hvw, hr⟩ := (ih (sizeOf v) hltv).1 v w _ _ _ _ (le_refl _) hv1 hw1 hs1 hs2
              (termRest_comma _) (termRest_comma _) heq
            simp only [List.cons.injEq, true_and] at hr
            rw [← stringifyElems_cons_eq hd1, ← stringifyElems_cons_eq hd2] at hr
            have hltl : sizeOf (v2 :: vs2) < N := by
              have htmp := hN
              simp_arith at htmp
              simp_arith
              omega
            obtain ⟨htail, hrr⟩ := (ih (sizeOf (v2 :: vs2)) hltl).2.1 (v2 :: vs2)
              (w2 :: ws2) r1 r2 (le_refl _) hv2 hw2 hr
            exact ⟨by rw [hvw, htail], hrr⟩
  · intro kvs lvs r1 r2 hN h1 h2 heq
    cases kvs with
    | nil =>
      cases lvs with
      | nil =>
        simp only [stringifyFields, commaJoin, List.nil_append,
          List.cons.injEq, true_and] at heq
        exact ⟨rfl, heq⟩
      | cons p lvs2 =>
        exfalso
        rcases p with ⟨k, w⟩
        obtain ⟨hw1, hw2⟩ := noUndefFields_cons h2
        obtain ⟨sw, hsw⟩ : ∃ s, stringifyVal w = some s := by
          rcases hs : stringifyVal w with _ | s
          · exact absurd ((stringifyVal_none_iff w).mp hs)
              (by cases w <;> simp [noUndef] at hw1 ⊢ <;> simp_all [isUndef])
          · exact ⟨s, rfl⟩
        obtain ⟨X, hX⟩ := commaJoin_cons_ex (quoteChars k ++ (':' :: sw))
          (stringifyFields lvs2)
        rw [stringifyFields_cons_eq hsw, hX] at heq
        simp only [stringifyFields, commaJoin, List.nil_append, quoteChars,
          List.cons_append, List.append_assoc, List.cons.injEq] at heq
        exact absurd heq.1 (by decide)
    | cons p kvs2 =>
      rcases p with ⟨k1, v⟩
      cases lvs with
      | nil =>
        exfalso
        obtain ⟨hv1, hv2⟩ := noUndefFields_cons h1
        obtain ⟨sv, hsv⟩ : ∃ s, stringifyVal v = some s := by
          rcases hs : stringifyVal v with _ | s
          · exact absurd ((stringifyVal_none_iff v).mp hs)
              (by cases v <;> simp [noUndef] at hv1 ⊢ <;> simp_all [isUndef])
          · exact ⟨s, rfl⟩
        obtain ⟨X, hX⟩ := commaJoin_cons_ex (quoteChars k1 ++ (':' :: sv))
          (stringifyFields kvs2)
        rw [stringifyFields_cons_eq hsv, hX] at heq
        simp only [stringifyFields, commaJoin, List.nil_append, quoteChars,
          List.cons_append, List.append_assoc, List.cons.injEq] at heq
        exact absurd heq.1.symm (by decide)
      | cons q lvs2 =>
        rcases q with ⟨k2, w⟩
        obtain ⟨hv1, hv2⟩ := noUndefFields_cons h1
        obtain ⟨hw1, hw2⟩ := noUndefFields_cons h2
        obtain ⟨c1, rest1, hs1, -⟩ := stringifyVal_shape v hv1
        obtain ⟨c2, rest2, hs2, -⟩ := stringifyVal_shape w hw1
        rw [stringifyFields_cons_eq hs1, stringifyFields_cons_eq hs2] at heq
        -- normalize both sides to quoteChars k ++ (':' :: (value ++ rest))
        cases kvs2 with
        | nil =>
          cases lvs2 with
          | nil =>
            rw [show stringifyFields ([] : List (String × Json)) = [] from rfl,
              commaJoin_single_append, commaJoin_single_append] at heq
            rw [List.append_assoc, List.append_assoc] at heq
            obtain ⟨hk, hrest⟩ := quoteChars_inj k1 k2 _ _ heq
            simp only [List.cons_append] at hrest
            injection hrest with hcolon hrest2
            have hltv : sizeOf v < N := by
              have htmp := hN
              simp_arith at htmp
              omega
            obtain ⟨hvw, hr⟩ := (ih (sizeOf v) hltv).1 v w _ _ _ _ (le_refl _) hv1 hw1 hs1 hs2
              (termRest_rbrace _) (termRest_rbrace _) hrest2
            simp only [List.cons.injEq, true_and] at hr
            exact ⟨by rw [hk, hvw], hr⟩
          | cons q2 lvs3 =>
            exfalso
            rcases q2 with ⟨k3, w2⟩
            obtain ⟨hw21, hw22⟩ := noUndefFields_cons hw2
            obtain ⟨d2, drest2, hd2, -⟩ := stringifyVal_shape w2 hw21
            rw [stringifyFields_cons_eq hd2] at heq
            rw [show stringifyFields ([] : List (String × Json)) = [] from rfl,
              commaJoin_single_append, commaJoin_cons_append] at heq
            rw [List.append_assoc, List.append_assoc] at heq
            obtain ⟨hk, hrest⟩ := quoteChars_inj k1 k2 _ _ heq
            simp only [List.cons_append] at hrest
            injection hrest with hcolon hrest2
            have hltv : sizeOf v < N := by
              have htmp := hN
              simp_arith at htmp
              omega
            obtain ⟨hvw, hr⟩ := (ih (sizeOf v) hltv).1 v w _ _ _ _ (le_refl _) hv1 hw1 hs1 hs2
              (termRest_rbrace _) (termRest_comma _) hrest2
            simp only [List.cons.injEq] at hr
            exact absurd hr.1 (by decide)
        | cons p2 kvs3 =>
          cases lvs2 with
          | nil =>
            exfalso
            rcases p2 with ⟨k3, v2⟩
            obtain ⟨hv21, hv22⟩ := noUndefFields_cons hv2
            obtain ⟨d1, drest1, hd1, -⟩ := stringifyVal_shape v2 hv21
            rw [stringifyFields_cons_eq hd1] at heq
            rw [show stringifyFields ([] : List (String × Json)) = [] from rfl,
              commaJoin_single_append, commaJoin_cons_append] at heq
            rw [List.append_assoc, List.append_assoc] at heq
            obtain ⟨hk, hrest⟩ := quoteChars_inj k1 k2 _ _ heq
            simp only [List.cons_append] at hrest
            injection hrest with hcolon hrest2
            have hltv : sizeOf v < N := by
              have htmp := hN
              simp_arith at htmp
              omega
            obtain ⟨hvw, hr⟩ := (ih (sizeOf v) hltv).1 v w _ _ _ _ (le_refl _) hv1 hw1 hs1 hs2
              (termRest_comma _) (termRest_rbrace _) hrest2
            simp only [List.cons.injEq] at hr
            exact absurd hr.1 (by decide)
          | cons q2 lvs3 =>
            rcases p2 with ⟨k3, v2⟩
            rcases q2 with ⟨k4, w2⟩
            obtain ⟨hv21, hv22⟩ := noUndefFields_cons hv2
            obtain ⟨hw21, hw22⟩ := noUndefFields_cons hw2
            obtain ⟨d1, drest1, hd1, -⟩ := stringifyVal_shape v2 hv21
            obtain ⟨d2, drest2, hd2, -⟩ := stringifyVal_shape w2 hw21
            rw [stringifyFields_cons_eq hd1, stringifyFields_cons_eq hd2,
              commaJoin_cons_append, commaJoin_cons_append] at heq
            rw [List.append_assoc, List.append_assoc] at heq
            obtain ⟨hk, hrest⟩ := quoteChars_inj k1 k2 _ _ heq
            simp only [List.cons_append] at hrest
            injection hrest with hcolon hrest2
            have hltv : sizeOf v < N := by
              have htmp := hN
              simp_arith at htmp
              omega
            obtain ⟨hvw, hr⟩ := (ih (sizeOf v) hltv).1 v w _ _ _ _ (le_refl _) hv1 hw1 hs1 hs2
              (termRest_comma _) (termRest_comma _) hrest2
            simp only [List.cons.injEq, true_and] at hr
            rw [← stringifyFields_cons_eq hd1, ← stringifyFields_cons_eq hd2] at hr
            have hltl : sizeOf ((k3, v2) :: kvs3) < N := by
              have htmp := hN
              simp_arith at htmp
              simp_arith
              omega
            obtain ⟨htail, hrr⟩ := (ih (sizeOf ((k3, v2) :: kvs3)) hltl).2.2
              ((k3, v2) :: kvs3) ((k4, w2) :: lvs3) r1 r2 (le_refl _) hv2 hw2 hr
            exact ⟨by rw [hk, hvw, htail], hrr⟩

theorem stringifyVal_inj_rest (v w : Json) (sv sw r1 r2 : List Char)
    (hv : noUndef v = true) (hw : noUndef w = true)
    (hsv : stringifyVal v = some sv) (hsw : stringifyVal w = some sw)
    (ht1 : termRest r1 = true) (ht2 : termRest r2 = true)
    (heq : sv ++ r1 = sw ++ r2) : v = w ∧ r1 = r2 :=
  (serializeInjAux (sizeOf v)).1 v w sv sw r1 r2 (le_refl _) hv hw hsv hsw
    ht1 ht2 heq

/-- C3 (corrected): what is true of the local sealer's serialization in
place of canonicalization.  On `undefined`-free payloads `JSON.stringify`
is injective - identical bytes imply identical ordered payloads - so any
two payloads that differ at all (in particular the structurally-equal
key-order variants of the counterexample) serialize to different byte
sequences; serialization of a fixed in-memory payload is trivially
deterministic.  Key-order-insensitive canonicalization is absent. -/
theorem stringify_injective_on_defined (p q : List (String × Json))
    (hp : noUndefFields p = true) (hq : noUndefFields q = true)
    (h : stringifyVal (Json.obj p) = stringifyVal (Json.obj q)) : p = q := by
  have h2 : lbrace :: (commaJoin (stringifyFields p) ++ [rbrace]) =
      lbrace :: (commaJoin (stringifyFields q) ++ [rbrace]) := Option.some.inj h
  simp only [List.cons.injEq, true_and] at h2
  exact ((serializeInjAux (sizeOf p)).2.2 p q [] [] (le_refl _) hp hq h2).1

/-- C3 witness: the hypotheses of the injectivity theorem hold at the
concrete payload `a = 1, b = 2`, and the theorem applies. -/
theorem stringify_injective_on_defined_witness :
    [("a", Json.num 1), ("b", Json.num 2)] =
      [("a", Json.num 1), ("b", Json.num 2)] :=
  stringify_injective_on_defined [("a", Json.num 1), ("b", Json.num 2)]
    [("a", Json.num 1), ("b", Json.num 2)] rfl rfl rfl
